import Mathlib

/-!
Verification of the stock-market-game trade network (`src/map.py`), the company
registry (`src/registry.py`) and the company derived-field computations
(`src/company.py`).

Numeric conventions: Python ints are `Int`/`Nat`, Python floats are `Rat`.
The `networkx` undirected graph used by `Map` is embedded as a node list plus
an edge list holding at most one edge per unordered pair (edge lookup always
goes through `findEdge`, mirroring the adjacency-dict lookup `G[u][v]`).
`nx.shortest_path(G, s, t, weight)` is Dijkstra-based
(`nx.bidirectional_dijkstra`); it raises `NodeNotFound` when an endpoint is
missing, returns `[s]` when `s == t`, raises `NetworkXNoPath` when no path
exists, and otherwise returns a minimum-weight path — a contract the library
documents for non-negative edge weights.  We embed that contract executably as
a first-minimum over the exhaustive enumeration of simple paths of the
accessibility-filtered subgraph; all optimality theorems carry the
non-negative-weight hypothesis under which the library guarantees hold.
-/

/-- An edge of the `networkx` graph held by `Map`: the attribute dict written by
`Map.add_connection` (`distance`, `route_type`, `accessible`) together with its
two endpoints. -/
structure Edge where
  a : Nat
  b : Nat
  distance : Rat
  route_type : String
  accessible : Bool
deriving DecidableEq

/-- The `nx.Graph()` stored in `Map.graph`: a list of node ids and a list of
edges (at most one per unordered pair in any state the operations reach). -/
structure NXGraph where
  nodes : List Nat
  edges : List Edge
deriving DecidableEq

/-- Whether an edge joins the unordered pair `{u, v}` (the graph is
undirected, so both orientations match). -/
def matchesPair (ed : Edge) (u v : Nat) : Bool :=
  (ed.a == u && ed.b == v) || (ed.a == v && ed.b == u)

/-- `nx.Graph.add_node`: inserts the node if absent (re-adding an existing id
only refreshes its attribute dict, which the routing engine never reads). -/
def NXGraph.addNode (g : NXGraph) (u : Nat) : NXGraph :=
  if u ∈ g.nodes then g else { g with nodes := g.nodes ++ [u] }

/-- `nx.Graph.has_edge`. -/
def NXGraph.hasEdge (g : NXGraph) (u v : Nat) : Bool :=
  g.edges.any (fun ed => matchesPair ed u v)

/-- `nx.Graph.add_edge` with the three attributes set by `add_connection`:
auto-creates missing endpoint nodes, and replaces the attributes of an
existing edge for the same unordered pair. -/
def NXGraph.addEdge (g : NXGraph) (u v : Nat) (d : Rat) (rt : String)
    (acc : Bool) : NXGraph :=
  let g1 := (g.addNode u).addNode v
  { g1 with
    edges := g1.edges.filter (fun ed => !(matchesPair ed u v)) ++
      [{ a := u, b := v, distance := d, route_type := rt, accessible := acc }] }

/-- The assignment `self.graph[u][v]["accessible"] = acc` on the adjacency
dict: rewrites the `accessible` attribute of every edge joining `{u, v}`. -/
def NXGraph.setEdgeAccessible (g : NXGraph) (u v : Nat) (acc : Bool) : NXGraph :=
  { g with
    edges := g.edges.map (fun ed =>
      if matchesPair ed u v then { ed with accessible := acc } else ed) }

/-- The adjacency-dict lookup `G[u][v]`: the edge joining `{u, v}`, if any. -/
def findEdge (g : NXGraph) (u v : Nat) : Option Edge :=
  g.edges.find? (fun ed => matchesPair ed u v)

/-- The edge filter of the `subgraph_view` built by both path queries:
`lambda u, v: self.graph[u][v]["accessible"]`.  `false` when no edge joins
the pair. -/
def accEdge (g : NXGraph) (u v : Nat) : Bool :=
  match findEdge g u v with
  | some ed => ed.accessible
  | none => false

/-- Weight contributed by one step `u → v` of a path under the edge-weight
function `w` (0 when no edge joins the pair; every step of a returned path
does have an edge). -/
def stepWeight (g : NXGraph) (w : Edge → Rat) (u v : Nat) : Rat :=
  match findEdge g u v with
  | some ed => w ed
  | none => 0

/-- Total weight of a node sequence: the sum of `w` over its consecutive
edges, as `nx.shortest_path` totals its `weight` argument. -/
def pathWeight (g : NXGraph) (w : Edge → Rat) : List Nat → Rat
  | u :: rest =>
    match rest with
    | v :: _ => stepWeight g w u v + pathWeight g w rest
    | [] => 0
  | [] => 0

/-- An accessible walk of the graph from `s` to `t`: a nonempty node
sequence starting at `s`, ending at `t`, whose nodes belong to the graph and
whose consecutive pairs are joined by currently-accessible edges.  This is
the comparison class of "accessible path between start and end" in the spec. -/
inductive AccWalk (g : NXGraph) : Nat → Nat → List Nat → Prop
  | single (u : Nat) (hu : u ∈ g.nodes) : AccWalk g u u [u]
  | cons (u v t : Nat) (p : List Nat) (hu : u ∈ g.nodes)
      (he : accEdge g u v = true) (hw : AccWalk g v t p) :
      AccWalk g u t (u :: p)

/-- Depth-first enumeration of the simple paths from `u` to `t` that use only
accessible edges and avoid `visited`; `fuel` bounds the recursion depth. -/
def pathsAux (g : NXGraph) (t : Nat) : Nat → List Nat → Nat → List (List Nat)
  | fuel, visited, u =>
    if u = t then [[u]]
    else
      match fuel with
      | 0 => []
      | Nat.succ fuel1 =>
        (g.nodes.filter
            (fun v => accEdge g u v && !((u :: visited).contains v))).flatMap
          (fun v => (pathsAux g t fuel1 (u :: visited) v).map (u :: ·))

/-- All simple accessible paths from `s` to `t` (enough fuel for any
duplicate-free node sequence of the graph). -/
def simplePaths (g : NXGraph) (s t : Nat) : List (List Nat) :=
  pathsAux g t g.nodes.length [] s

/-- First minimum of a list under the measure `w` (deterministic tie-break on
enumeration order, as the underlying search breaks ties deterministically). -/
def minBy (w : List Nat → Rat) (l : List (List Nat)) : Option (List Nat) :=
  match l with
  | [] => none
  | p :: ps => some (ps.foldl (fun best q => if w q < w best then q else best) p)

/-- The two failure modes of `nx.shortest_path`: `nx.NodeNotFound` (raised
first when either endpoint is absent from the graph) and `nx.NetworkXNoPath`
(raised when both endpoints are present but no path survives the edge
filter).  They are distinct exception classes, neither a subclass of the
other. -/
inductive PathError where
  | nodeNotFound
  | noPath
deriving DecidableEq

/-- `nx.shortest_path(G, s, t, weight)` on the accessibility-filtered
subgraph, by the library's Dijkstra contract: endpoint check, the trivial
`s == t` path, and otherwise a minimum-weight accessible path (or
`NetworkXNoPath`). -/
def nxShortestPath (g : NXGraph) (s t : Nat) (w : Edge → Rat) :
    Except PathError (List Nat) :=
  if s ∈ g.nodes ∧ t ∈ g.nodes then
    if s = t then .ok [s]
    else
      match minBy (pathWeight g w) (simplePaths g s t) with
      | some p => .ok p
      | none => .error .noPath
  else .error .nodeNotFound

/-- The `Map` class of `src/map.py`: a wrapper around the `networkx` graph. -/
structure Map where
  graph : NXGraph

/-- `Map.__init__`: starts with an empty graph. -/
def Map.init : Map := { graph := { nodes := [], edges := [] } }

/-- `Map.add_city` (the attribute bag is opaque to the routing engine and is
not modelled). -/
def Map.add_city (m : Map) (city_id : Nat) : Map :=
  { graph := m.graph.addNode city_id }

/-- `Map.add_connection`. -/
def Map.add_connection (m : Map) (city_a city_b : Nat) (distance : Rat)
    (route_type : String) (accessible : Bool) : Map :=
  { graph := m.graph.addEdge city_a city_b distance route_type accessible }

/-- `Map.set_accessibility`: guarded by `has_edge`, then rewrites the flag. -/
def Map.set_accessibility (m : Map) (city_a city_b : Nat) (accessible : Bool) :
    Map :=
  if m.graph.hasEdge city_a city_b then
    { graph := m.graph.setEdgeAccessible city_a city_b accessible }
  else m

/-- `Map.get_shortest_path`: `nx.shortest_path` on the accessible subgraph
with `weight="distance"`. -/
def Map.get_shortest_path (m : Map) (start finish : Nat) :
    Except PathError (List Nat) :=
  nxShortestPath m.graph start finish (fun ed => ed.distance)

/-- The inner `cost(u, v, a)` function of `Map.get_cheapest_path`. -/
def costFn (land_cost_per_km sea_cost_per_km : Rat) (ed : Edge) : Rat :=
  if ed.route_type == "land" then ed.distance * land_cost_per_km
  else ed.distance * sea_cost_per_km

/-- `Map.get_cheapest_path`: `nx.shortest_path` on the accessible subgraph
with the `cost` weight function. -/
def Map.get_cheapest_path (m : Map) (start finish : Nat)
    (land_cost_per_km sea_cost_per_km : Rat) : Except PathError (List Nat) :=
  nxShortestPath m.graph start finish (costFn land_cost_per_km sea_cost_per_km)

/-- Whether the edge `{x, y}` is used by some consecutive pair of the node
sequence (in either orientation). -/
def usesEdge (x y : Nat) : List Nat → Bool
  | u :: rest =>
    match rest with
    | v :: _ =>
      ((u == x && v == y) || (u == y && v == x)) || usesEdge x y rest
    | [] => false
  | [] => false

/-- One call against the `Map` interface, for stating which graph states are
reachable through the three mutating operations. -/
inductive MapOp where
  | add_city (city_id : Nat)
  | add_connection (city_a city_b : Nat) (distance : Rat) (route_type : String)
      (accessible : Bool)
  | set_accessibility (city_a city_b : Nat) (accessible : Bool)

/-- Apply one operation to a `Map`. -/
def applyOp (m : Map) : MapOp → Map
  | .add_city i => m.add_city i
  | .add_connection a b d rt acc => m.add_connection a b d rt acc
  | .set_accessibility a b acc => m.set_accessibility a b acc

/-- Apply a sequence of operations to a `Map`, in order. -/
def applyOps (m : Map) (ops : List MapOp) : Map := ops.foldl applyOp m

/-- Whether an operation avoids requesting a connection from a city to
itself. -/
def opNoSelfLoop : MapOp → Bool
  | .add_connection a b _ _ _ => !(a == b)
  | _ => true

/-- The map built by the `__main__` block of `src/map.py`: London (0), Paris
(1), Lille (2); sea edge 0–1 of 400 km, land edges 0–2 and 2–1 of 250 km. -/
def demoMap : Map :=
  ((((((Map.init.add_city 0).add_city 1).add_city 2).add_connection 0 1 400
    "sea" true).add_connection 0 2 250 "land" true).add_connection 2 1 250
    "land" true)

/-- A map holding a single sea connection 0–1 of 10 km. -/
def seaEdgeMap : Map := Map.init.add_connection 0 1 10 "sea" true

/-- A map holding two cities and no connection. -/
def twoCityMap : Map := (Map.init.add_city 0).add_city 1

/-- A sample operation sequence: two cities, one connection, one toggle. -/
def demoOps : List MapOp :=
  [MapOp.add_city 0, MapOp.add_city 1,
   MapOp.add_connection 0 1 400 "sea" true,
   MapOp.set_accessibility 0 1 false]

/-- A Python value as stored by `Registry`: `registry` keys are `int` ids,
its values are `(name, ticker)` tuples of `str`, and the membership tests in
`register_company` compare these against `str` arguments. -/
inductive PyVal where
  | int (n : Int)
  | str (s : String)
  | pair (x y : PyVal)
deriving DecidableEq

/-- Python `==` on the stored values: equality within a type, and `False`
across `int`, `str` and `tuple` (no exceptions, no coercions). -/
def pyEq : PyVal → PyVal → Bool
  | .int m, .int n => m == n
  | .str x, .str y => x == y
  | .pair x y, .pair x2 y2 => pyEq x x2 && pyEq y y2
  | _, _ => false

/-- Python dict assignment `d[k] = v`: replaces the value of an existing key
in place, otherwise appends the new binding (insertion order preserved). -/
def dictSet (d : List (PyVal × PyVal)) (k v : PyVal) : List (PyVal × PyVal) :=
  if d.any (fun kv => pyEq kv.fst k) then
    d.map (fun kv => if pyEq kv.fst k then (kv.fst, v) else kv)
  else d ++ [(k, v)]

/-- The `Registry` class of `src/registry.py`: the `registry` dict
`{company_id: (name, ticker)}` and the `next_company_id` counter. -/
structure Registry where
  registry : List (PyVal × PyVal)
  next_company_id : Int

/-- `Registry.__init__`. -/
def Registry.init : Registry := { registry := [], next_company_id := 1 }

/-- `Registry.register_company`: the guard is the source's
`name in self.registry or ticker in self.registry.values()` — a key-membership
test of the `str` name against the `int` keys, and a value-membership test of
the `str` ticker against the `(name, ticker)` tuples. -/
def Registry.register_company (r : Registry) (name ticker : String) :
    Registry × Option Int :=
  if r.registry.any (fun kv => pyEq kv.fst (.str name)) ||
      r.registry.any (fun kv => pyEq kv.snd (.str ticker)) then
    (r, none)
  else
    let company_id := r.next_company_id
    ({ registry := dictSet r.registry (.int company_id)
        (.pair (.str name) (.str ticker)),
       next_company_id := company_id + 1 }, some company_id)

/-- Python `d.get(k, 0)` on a `dict[str, int]` modelled as an ordered
association list. -/
def dictGet (d : List (String × Int)) (k : String) : Int :=
  match d.find? (fun kv => kv.fst == k) with
  | some kv => kv.snd
  | none => 0

/-- The `total_output` accumulator of `Company.calculate_efficiency`: the
loop over `capacity.items()` sums `outputs.get(product, 0)`. -/
def totalOutput (outputs capacity : List (String × Int)) : Int :=
  capacity.foldl (fun acc pc => acc + dictGet outputs pc.fst) 0

/-- The `total_capacity` accumulator of the same loop: the sum of the
capacity values. -/
def totalCapacity (capacity : List (String × Int)) : Int :=
  capacity.foldl (fun acc pc => acc + pc.snd) 0

/-- `Company.calculate_efficiency`: guards `total_capacity == 0` (returning
0) before dividing, and otherwise returns the percentage on a 0–100 scale. -/
def calculate_efficiency (outputs capacity : List (String × Int)) : Rat :=
  if totalCapacity capacity = 0 then 0
  else (totalOutput outputs capacity : Rat) / (totalCapacity capacity : Rat) * 100

/-- `Company.set_status`: `efficiency >= 0.9` → Operational,
`efficiency > 0` → Limited, otherwise Idle. -/
def set_status (efficiency : Rat) : String :=
  if 9 / 10 ≤ efficiency then "Operational"
  else if 0 < efficiency then "Limited"
  else "Idle"

/-- The status a company receives in `Company.__init__`:
`self.efficiency = self.calculate_efficiency(outputs, capacity)` followed by
`self.status = self.set_status(self.efficiency)`. -/
def companyInitStatus (outputs capacity : List (String × Int)) : String :=
  set_status (calculate_efficiency outputs capacity)

/-! ### Basic facts about accessible walks -/

theorem AccWalk.ne_nil {g : NXGraph} {s t : Nat} {p : List Nat}
    (h : AccWalk g s t p) : p ≠ [] := by
  cases h <;> simp

theorem AccWalk.eq_cons {g : NXGraph} {s t : Nat} {p : List Nat}
    (h : AccWalk g s t p) : ∃ l, p = s :: l := by
  cases h with
  | single u hu => exact ⟨[], rfl⟩
  | cons u v t p hu he hw => exact ⟨p, rfl⟩

theorem AccWalk.head_eq {g : NXGraph} {s t : Nat} {p : List Nat}
    (h : AccWalk g s t p) : p.head? = some s := by
  cases h <;> rfl

theorem AccWalk.start_mem {g : NXGraph} {s t : Nat} {p : List Nat}
    (h : AccWalk g s t p) : s ∈ g.nodes := by
  cases h with
  | single u hu => exact hu
  | cons u v t p hu he hw => exact hu

theorem AccWalk.end_mem {g : NXGraph} {s t : Nat} {p : List Nat}
    (h : AccWalk g s t p) : t ∈ g.nodes := by
  induction h with
  | single u hu => exact hu
  | cons u v t p hu he hw ih => exact ih

theorem AccWalk.last_eq {g : NXGraph} {s t : Nat} {p : List Nat}
    (h : AccWalk g s t p) : p.getLast? = some t := by
  induction h with
  | single u hu => rfl
  | cons u v t p hu he hw ih =>
    cases p with
    | nil => exact absurd rfl hw.ne_nil
    | cons y ys => rw [List.getLast?_cons_cons]; exact ih

theorem AccWalk.mem_nodes {g : NXGraph} {s t : Nat} {p : List Nat}
    (h : AccWalk g s t p) : ∀ x ∈ p, x ∈ g.nodes := by
  induction h with
  | single u hu =>
    intro x hx
    rw [List.mem_singleton] at hx
    subst hx
    exact hu
  | cons u v t p hu he hw ih =>
    intro x hx
    rcases List.mem_cons.mp hx with rfl | hx2
    · exact hu
    · exact ih x hx2

theorem AccWalk.chain {g : NXGraph} {s t : Nat} {p : List Nat}
    (h : AccWalk g s t p) :
    List.Chain' (fun x y => accEdge g x y = true) p := by
  induction h with
  | single u hu => exact List.chain'_singleton u
  | cons u v t p hu he hw ih =>
    obtain ⟨l, rfl⟩ := hw.eq_cons
    exact List.chain'_cons.mpr ⟨he, ih⟩

theorem AccWalk.suffix {g : NXGraph} {s t : Nat} {p : List Nat}
    (h : AccWalk g s t p) :
    ∀ x l, (x :: l) <:+ p → AccWalk g x t (x :: l) := by
  induction h with
  | single u hu =>
    intro x l hs
    rcases List.suffix_cons_iff.mp hs with heq | hs2
    · injection heq with h1 h2
      subst h1
      subst h2
      exact .single x hu
    · rw [List.suffix_nil] at hs2
      simp at hs2
  | cons u v t p hu he hw ih =>
    intro x l hs
    rcases List.suffix_cons_iff.mp hs with heq | hs2
    · injection heq with h1 h2
      subst h1
      subst h2
      exact .cons x v t _ hu he hw
    · exact ih x l hs2

/-! ### Path-weight lemmas -/

theorem pathWeight_cons_cons (g : NXGraph) (w : Edge → Rat) (u v : Nat)
    (l : List Nat) :
    pathWeight g w (u :: v :: l) = stepWeight g w u v + pathWeight g w (v :: l) :=
  rfl

theorem stepWeight_nonneg {g : NXGraph} {w : Edge → Rat} (u v : Nat)
    (hnn : ∀ ed ∈ g.edges, 0 ≤ w ed) :
    0 ≤ stepWeight g w u v := by
  unfold stepWeight
  cases hfe : findEdge g u v with
  | none => exact le_refl 0
  | some ed => exact hnn ed (List.mem_of_find?_eq_some hfe)

theorem pathWeight_nonneg {g : NXGraph} {w : Edge → Rat}
    (hnn : ∀ ed ∈ g.edges, 0 ≤ w ed) :
    ∀ p, 0 ≤ pathWeight g w p := by
  intro p
  induction p with
  | nil => simp [pathWeight]
  | cons u rest ih =>
    cases rest with
    | nil => simp [pathWeight]
    | cons v l =>
      rw [pathWeight_cons_cons]
      exact add_nonneg (stepWeight_nonneg u v hnn) ih

theorem pathWeight_suffix_le {g : NXGraph} {w : Edge → Rat}
    (hnn : ∀ ed ∈ g.edges, 0 ≤ w ed) :
    ∀ xs (u : Nat) ys,
      pathWeight g w (u :: ys) ≤ pathWeight g w (xs ++ u :: ys) := by
  intro xs
  induction xs with
  | nil => intro u ys; simp
  | cons x xs2 ih =>
    intro u ys
    have hne : xs2 ++ u :: ys ≠ [] := by simp
    obtain ⟨c, L2, hxs⟩ := List.exists_cons_of_ne_nil hne
    rw [List.cons_append, hxs, pathWeight_cons_cons]
    have hih := ih u ys
    rw [hxs] at hih
    have hs := stepWeight_nonneg x c hnn
    linarith

/-! ### Every accessible walk dominates a duplicate-free accessible walk -/

theorem accWalk_dedupe {g : NXGraph} {w : Edge → Rat}
    (hnn : ∀ ed ∈ g.edges, 0 ≤ w ed) :
    ∀ (n : Nat) (s t : Nat) (p : List Nat), p.length ≤ n → AccWalk g s t p →
      ∃ q, AccWalk g s t q ∧ q.Nodup ∧ (∀ x ∈ q, x ∈ p) ∧
        pathWeight g w q ≤ pathWeight g w p := by
  intro n
  induction n with
  | zero =>
    intro s t p hl h
    cases p with
    | nil => exact absurd rfl h.ne_nil
    | cons a l => simp at hl
  | succ n ih =>
    intro s t p hl h
    cases h with
    | single u hu => exact ⟨[s], .single s hu, by simp, by simp, le_refl _⟩
    | cons u v t p2 hu he hw =>
      by_cases hmem : s ∈ p2
      · obtain ⟨l1, l2, rfl⟩ := List.append_of_mem hmem
        have hsuf : (s :: l2) <:+ (s :: (l1 ++ s :: l2)) :=
          (List.suffix_append l1 (s :: l2)).trans
            (List.suffix_cons s (l1 ++ s :: l2))
        have hsub : AccWalk g s t (s :: l2) :=
          (AccWalk.cons s v t _ hu he hw).suffix s l2 hsuf
        have hlen : (s :: l2).length ≤ n := by
          simp at hl ⊢
          omega
        obtain ⟨q, hq, hnd, hsubq, hwt⟩ := ih s t (s :: l2) hlen hsub
        refine ⟨q, hq, hnd, ?_, ?_⟩
        · intro x hx
          rcases List.mem_cons.mp (hsubq x hx) with rfl | hx2
          · exact List.mem_cons_self _ _
          · exact List.mem_cons_of_mem _
              (List.mem_append_right _ (List.mem_cons_of_mem _ hx2))
        · refine hwt.trans ?_
          have hle : pathWeight g w (s :: l2) ≤
              pathWeight g w ((s :: l1) ++ s :: l2) :=
            pathWeight_suffix_le hnn (s :: l1) s l2
          simpa using hle
      · have hlen : p2.length ≤ n := by
          simp at hl
          omega
        obtain ⟨q2, hq2, hnd2, hsub2, hwt2⟩ := ih v t p2 hlen hw
        refine ⟨s :: q2, .cons s v t q2 hu he hq2, ?_, ?_, ?_⟩
        · rw [List.nodup_cons]
          exact ⟨fun hx => hmem (hsub2 s hx), hnd2⟩
        · intro x hx
          rcases List.mem_cons.mp hx with rfl | hx2
          · exact List.mem_cons_self _ _
          · exact List.mem_cons_of_mem _ (hsub2 x hx2)
        · obtain ⟨l2, rfl⟩ := hq2.eq_cons
          obtain ⟨l3, rfl⟩ := hw.eq_cons
          rw [pathWeight_cons_cons, pathWeight_cons_cons]
          exact add_le_add_left hwt2 _

/-! ### Soundness and completeness of the simple-path enumeration -/

theorem pathsAux_zero (g : NXGraph) (t : Nat) (visited : List Nat) (u : Nat) :
    pathsAux g t 0 visited u = if u = t then [[u]] else [] := by
  rw [pathsAux.eq_def]

theorem pathsAux_succ (g : NXGraph) (t f1 : Nat) (visited : List Nat)
    (u : Nat) :
    pathsAux g t (f1 + 1) visited u =
      if u = t then [[u]]
      else
        (g.nodes.filter
            (fun v => accEdge g u v && !((u :: visited).contains v))).flatMap
          (fun v => (pathsAux g t f1 (u :: visited) v).map (u :: ·)) := by
  rw [pathsAux.eq_def]

theorem pathsAux_self (g : NXGraph) (t fuel : Nat) (visited : List Nat) :
    pathsAux g t fuel visited t = [[t]] := by
  cases fuel with
  | zero => rw [pathsAux_zero, if_pos rfl]
  | succ f1 => rw [pathsAux_succ, if_pos rfl]

theorem pathsAux_sound {g : NXGraph} {t : Nat} :
    ∀ (fuel : Nat) (visited : List Nat) (u : Nat), u ∈ g.nodes →
      ∀ p ∈ pathsAux g t fuel visited u, AccWalk g u t p := by
  intro fuel
  induction fuel with
  | zero =>
    intro visited u hu p hp
    by_cases hut : u = t
    · subst hut
      rw [pathsAux_self] at hp
      rw [List.mem_singleton] at hp
      subst hp
      exact .single u hu
    · rw [pathsAux_zero, if_neg hut] at hp
      simp at hp
  | succ f1 ih =>
    intro visited u hu p hp
    by_cases hut : u = t
    · subst hut
      rw [pathsAux_self] at hp
      rw [List.mem_singleton] at hp
      subst hp
      exact .single u hu
    · rw [pathsAux_succ, if_neg hut] at hp
      rw [List.mem_flatMap] at hp
      obtain ⟨v, hv, hpm⟩ := hp
      rw [List.mem_map] at hpm
      obtain ⟨q, hq, rfl⟩ := hpm
      rw [List.mem_filter] at hv
      obtain ⟨hvn, hcond⟩ := hv
      rw [Bool.and_eq_true] at hcond
      exact .cons u v t q hu hcond.1 (ih (u :: visited) v hvn q hq)

theorem pathsAux_complete {g : NXGraph} :
    ∀ {s t : Nat} {p : List Nat}, AccWalk g s t p → p.Nodup →
      ∀ (fuel : Nat) (visited : List Nat), (∀ x ∈ p, x ∉ visited) →
        p.length ≤ fuel + 1 → p ∈ pathsAux g t fuel visited s := by
  intro s t p h
  induction h with
  | single u hu =>
    intro _ fuel visited _ _
    rw [pathsAux_self]
    exact List.mem_singleton.mpr rfl
  | cons u v t p2 hu he hw ih =>
    intro hnd fuel visited hdis hlen
    obtain ⟨p3, rfl⟩ := hw.eq_cons
    have hut : u ≠ t := by
      intro heq
      subst heq
      have hlast := hw.last_eq
      have hne : (v :: p3) ≠ [] := by simp
      rw [List.getLast?_eq_getLast _ hne, Option.some.injEq] at hlast
      have hmem := List.getLast_mem hne
      rw [hlast] at hmem
      exact (List.nodup_cons.mp hnd).1 hmem
    cases fuel with
    | zero =>
      simp at hlen
    | succ f1 =>
      rw [pathsAux_succ, if_neg hut, List.mem_flatMap]
      refine ⟨v, ?_, ?_⟩
      · rw [List.mem_filter]
        refine ⟨hw.start_mem, ?_⟩
        rw [Bool.and_eq_true]
        refine ⟨he, ?_⟩
        have hvu : v ≠ u := by
          intro heq
          apply (List.nodup_cons.mp hnd).1
          rw [← heq]
          exact List.mem_cons_self _ _
        have hvv : v ∉ visited := hdis v (List.mem_cons_of_mem _ (List.mem_cons_self _ _))
        have hcv : (u :: visited).contains v = false := by
          cases hc : (u :: visited).contains v
          · rfl
          · exfalso
            have hvm : v ∈ u :: visited := List.elem_iff.mp hc
            rcases List.mem_cons.mp hvm with rfl | h2
            · exact hvu rfl
            · exact hvv h2
        rw [hcv]
        rfl
      · rw [List.mem_map]
        refine ⟨v :: p3, ?_, rfl⟩
        apply ih (List.nodup_cons.mp hnd).2 f1 (u :: visited) ?_ ?_
        · intro x hx
          intro hxm
          rcases List.mem_cons.mp hxm with rfl | hx2
          · exact (List.nodup_cons.mp hnd).1 hx
          · exact hdis x (List.mem_cons_of_mem _ hx) hx2
        · have := hlen
          simp at this ⊢
          omega

/-! ### The first-minimum selection -/

theorem foldl_min_spec {w : List Nat → Rat} :
    ∀ (ps : List (List Nat)) (best : List Nat),
      (ps.foldl (fun b q => if w q < w b then q else b) best) ∈ best :: ps ∧
      w (ps.foldl (fun b q => if w q < w b then q else b) best) ≤ w best ∧
      ∀ q ∈ ps, w (ps.foldl (fun b q => if w q < w b then q else b) best) ≤ w q := by
  intro ps
  induction ps with
  | nil =>
    intro best
    refine ⟨List.mem_cons_self _ _, le_refl _, ?_⟩
    intro q hq
    simp at hq
  | cons r ps2 ih =>
    intro best
    simp only [List.foldl_cons]
    obtain ⟨hmem, hle, hall⟩ := ih (if w r < w best then r else best)
    refine ⟨?_, ?_, ?_⟩
    · rcases List.mem_cons.mp hmem with heq | hmem2
      · rw [heq]
        split
        · exact List.mem_cons_of_mem _ (List.mem_cons_self _ _)
        · exact List.mem_cons_self _ _
      · exact List.mem_cons_of_mem _ (List.mem_cons_of_mem _ hmem2)
    · refine hle.trans ?_
      split
      · exact le_of_lt (by assumption)
      · exact le_refl _
    · intro q hq
      rcases List.mem_cons.mp hq with rfl | hq2
      · refine hle.trans ?_
        split
        · exact le_refl _
        · exact le_of_not_lt (by assumption)
      · exact hall q hq2

theorem minBy_spec {w : List Nat → Rat} {l : List (List Nat)} {p : List Nat}
    (h : minBy w l = some p) : p ∈ l ∧ ∀ q ∈ l, w p ≤ w q := by
  cases l with
  | nil => simp [minBy] at h
  | cons p0 ps =>
    simp only [minBy] at h
    rw [Option.some.injEq] at h
    obtain ⟨hmem, hle, hall⟩ := foldl_min_spec ps p0
    rw [h] at hmem hle hall
    refine ⟨hmem, ?_⟩
    intro q hq
    rcases List.mem_cons.mp hq with rfl | hq2
    · exact hle
    · exact hall q hq2

theorem minBy_ne_none {w : List Nat → Rat} {l : List (List Nat)}
    (h : l ≠ []) : ∃ p, minBy w l = some p := by
  cases l with
  | nil => exact absurd rfl h
  | cons p0 ps => exact ⟨_, rfl⟩

theorem nodup_length_le {p nodes : List Nat} (hnd : p.Nodup)
    (hsub : ∀ x ∈ p, x ∈ nodes) : p.length ≤ nodes.length := by
  calc p.length = p.toFinset.card := (List.toFinset_card_of_nodup hnd).symm
    _ ≤ nodes.toFinset.card := Finset.card_le_card
        (fun x hx => List.mem_toFinset.mpr (hsub x (List.mem_toFinset.mp hx)))
    _ ≤ nodes.length := List.toFinset_card_le nodes

/-! ### Correctness of the embedded shortest-path search -/

theorem nxShortestPath_correct {g : NXGraph} {s t : Nat} {w : Edge → Rat}
    (hnn : ∀ ed ∈ g.edges, 0 ≤ w ed) (hex : ∃ p0, AccWalk g s t p0) :
    ∃ p, nxShortestPath g s t w = Except.ok p ∧ AccWalk g s t p ∧
      ∀ q, AccWalk g s t q → pathWeight g w p ≤ pathWeight g w q := by
  obtain ⟨p0, hp0⟩ := hex
  have hs : s ∈ g.nodes := hp0.start_mem
  have ht : t ∈ g.nodes := hp0.end_mem
  by_cases hst : s = t
  · subst hst
    refine ⟨[s], ?_, .single s hs, ?_⟩
    · unfold nxShortestPath
      rw [if_pos ⟨hs, hs⟩, if_pos rfl]
    · intro q hq
      have h0 : pathWeight g w [s] = 0 := rfl
      rw [h0]
      exact pathWeight_nonneg hnn q
  · obtain ⟨p1, hp1, hnd1, _, hw1⟩ :=
      accWalk_dedupe hnn p0.length s t p0 (le_refl _) hp0
    have hmem1 : p1 ∈ simplePaths g s t := by
      apply pathsAux_complete hp1 hnd1
      · intro x hx
        simp
      · have := nodup_length_le hnd1 hp1.mem_nodes
        omega
    have hne : simplePaths g s t ≠ [] := by
      intro hq
      rw [hq] at hmem1
      simp at hmem1
    obtain ⟨p, hmb⟩ := minBy_ne_none hne
    obtain ⟨hpmem, hpmin⟩ := minBy_spec hmb
    refine ⟨p, ?_, ?_, ?_⟩
    · unfold nxShortestPath
      rw [if_pos ⟨hs, ht⟩, if_neg hst, hmb]
    · exact pathsAux_sound g.nodes.length [] s hs p hpmem
    · intro q hq
      obtain ⟨q1, hq1, hndq, _, hwq⟩ :=
        accWalk_dedupe hnn q.length s t q (le_refl _) hq
      have hmemq : q1 ∈ simplePaths g s t := by
        apply pathsAux_complete hq1 hndq
        · intro x hx
          simp
        · have := nodup_length_le hndq hq1.mem_nodes
          omega
      exact (hpmin q1 hmemq).trans hwq

/-! ### Facts about returned paths and the accessibility flag -/

theorem nxShortestPath_ok_chain {g : NXGraph} {s t : Nat} {w : Edge → Rat}
    {p : List Nat} (h : nxShortestPath g s t w = Except.ok p) :
    List.Chain' (fun x y => accEdge g x y = true) p := by
  unfold nxShortestPath at h
  by_cases hmem : s ∈ g.nodes ∧ t ∈ g.nodes
  · rw [if_pos hmem] at h
    by_cases hst : s = t
    · rw [if_pos hst] at h
      injection h with h2
      subst h2
      exact List.chain'_singleton s
    · rw [if_neg hst] at h
      cases hmb : minBy (pathWeight g w) (simplePaths g s t) with
      | none => rw [hmb] at h; simp at h
      | some q =>
        rw [hmb] at h
        injection h with h2
        subst h2
        exact (pathsAux_sound g.nodes.length [] s hmem.1 _
          (minBy_spec hmb).1).chain
  · rw [if_neg hmem] at h
    simp at h

theorem matchesPair_comm (ed : Edge) (u v : Nat) :
    matchesPair ed u v = matchesPair ed v u := by
  unfold matchesPair
  rw [Bool.or_comm]

theorem findEdge_comm (g : NXGraph) (u v : Nat) :
    findEdge g u v = findEdge g v u := by
  unfold findEdge
  rw [show (fun ed => matchesPair ed u v) = fun ed => matchesPair ed v u from
    funext fun ed => matchesPair_comm ed u v]

theorem accEdge_comm (g : NXGraph) (u v : Nat) :
    accEdge g u v = accEdge g v u := by
  unfold accEdge
  rw [findEdge_comm]

theorem matchesPair_update (ed : Edge) (u v : Nat) (acc : Bool) :
    matchesPair (if matchesPair ed u v then { ed with accessible := acc }
      else ed) u v = matchesPair ed u v := by
  split <;> rfl

theorem findEdge_setEdgeAccessible (g : NXGraph) (u v : Nat) (acc : Bool) :
    findEdge (g.setEdgeAccessible u v acc) u v =
      (findEdge g u v).map
        (fun ed => if matchesPair ed u v then { ed with accessible := acc }
          else ed) := by
  unfold findEdge NXGraph.setEdgeAccessible
  rw [List.find?_map]
  rw [show ((fun ed => matchesPair ed u v) ∘
      (fun ed => if matchesPair ed u v then { ed with accessible := acc }
        else ed)) = fun ed => matchesPair ed u v from
    funext fun ed => matchesPair_update ed u v acc]

theorem hasEdge_false_findEdge_none {g : NXGraph} {u v : Nat}
    (h : g.hasEdge u v = false) : findEdge g u v = none := by
  unfold NXGraph.hasEdge at h
  unfold findEdge
  rw [List.find?_eq_none]
  intro ed hed hmp
  rw [List.any_eq_false] at h
  exact h ed hed hmp

theorem accEdge_setEdgeAccessible_false (g : NXGraph) (u v : Nat) :
    accEdge (g.setEdgeAccessible u v false) u v = false := by
  unfold accEdge
  rw [findEdge_setEdgeAccessible]
  cases hfe : findEdge g u v with
  | none => rfl
  | some ed =>
    have hfe2 : g.edges.find? (fun ed => matchesPair ed u v) = some ed := hfe
    have hmp : matchesPair ed u v = true := by
      have h3 := List.find?_some hfe2
      exact h3
    show (if matchesPair ed u v = true then { ed with accessible := false }
      else ed).accessible = false
    rw [if_pos hmp]

theorem accEdge_after_disable (m : Map) (a b : Nat) :
    accEdge (m.set_accessibility a b false).graph a b = false := by
  unfold Map.set_accessibility
  by_cases h : m.graph.hasEdge a b = true
  · rw [if_pos h]
    exact accEdge_setEdgeAccessible_false m.graph a b
  · rw [if_neg h]
    unfold accEdge
    rw [hasEdge_false_findEdge_none (Bool.eq_false_iff.mpr h)]

theorem usesEdge_eq_false {g : NXGraph} {a b : Nat}
    (ha : accEdge g a b = false) :
    ∀ p, List.Chain' (fun x y => accEdge g x y = true) p →
      usesEdge a b p = false := by
  have hb : accEdge g b a = false := by rw [accEdge_comm]; exact ha
  intro p
  induction p with
  | nil => intro _; rfl
  | cons u rest ih =>
    cases rest with
    | nil => intro _; rfl
    | cons v l =>
      intro hc
      obtain ⟨h1, h2⟩ := List.chain'_cons.mp hc
      show (((u == a && v == b) || (u == b && v == a)) ||
        usesEdge a b (v :: l)) = false
      rw [ih h2, Bool.or_false]
      by_contra hne
      rw [Bool.not_eq_false, Bool.or_eq_true] at hne
      rcases hne with h3 | h3 <;> rw [Bool.and_eq_true] at h3 <;>
        obtain ⟨h4, h5⟩ := h3 <;> rw [beq_iff_eq] at h4 h5
      · rw [h4, h5] at h1
        rw [h1] at ha
        simp at ha
      · rw [h4, h5] at h1
        rw [h1] at hb
        simp at hb

theorem hasEdge_setEdgeAccessible (g : NXGraph) (u v : Nat) (acc : Bool) :
    (g.setEdgeAccessible u v acc).hasEdge u v = g.hasEdge u v := by
  unfold NXGraph.hasEdge NXGraph.setEdgeAccessible
  rw [List.any_map]
  congr 1
  funext ed
  exact matchesPair_update ed u v acc

theorem setEdgeAccessible_restore (g : NXGraph) (a b : Nat)
    (hacc : ∀ ed ∈ g.edges, matchesPair ed a b = true → ed.accessible = true) :
    (g.setEdgeAccessible a b false).setEdgeAccessible a b true = g := by
  cases g with
  | mk ns es =>
    unfold NXGraph.setEdgeAccessible
    simp only [List.map_map, NXGraph.mk.injEq, true_and]
    conv_rhs => rw [← List.map_id es]
    apply List.map_congr_left
    intro ed hed
    simp only [Function.comp_apply, id_eq]
    by_cases hmp : matchesPair ed a b = true
    · rw [if_pos hmp]
      have hm2 : matchesPair { ed with accessible := false } a b = true := hmp
      rw [if_pos hm2]
      rw [← hacc ed hed hmp]
    · rw [if_neg hmp, if_neg hmp]

theorem set_accessibility_restore (m : Map) (a b : Nat)
    (hacc : ∀ ed ∈ m.graph.edges, matchesPair ed a b = true →
      ed.accessible = true) :
    (m.set_accessibility a b false).set_accessibility a b true = m := by
  by_cases h : m.graph.hasEdge a b = true
  · have e1 : m.set_accessibility a b false =
        { graph := m.graph.setEdgeAccessible a b false } := by
      unfold Map.set_accessibility
      rw [if_pos h]
    rw [e1]
    have h2 : (m.graph.setEdgeAccessible a b false).hasEdge a b = true := by
      rw [hasEdge_setEdgeAccessible]
      exact h
    have e2 : ({ graph := m.graph.setEdgeAccessible a b false } : Map).set_accessibility
        a b true =
        { graph := (m.graph.setEdgeAccessible a b false).setEdgeAccessible a b true } := by
      unfold Map.set_accessibility
      rw [if_pos h2]
    rw [e2, setEdgeAccessible_restore m.graph a b hacc]
  · have e1 : m.set_accessibility a b false = m := by
      unfold Map.set_accessibility
      rw [if_neg h]
    rw [e1]
    unfold Map.set_accessibility
    rw [if_neg h]

/-! ### Claim theorems -/

/-- C1: whenever at least one accessible path joins `start` and `end` (with
the data model's non-negative distances), `get_shortest_path` returns an
ordered sequence of city ids that begins with `start`, ends with `end`, whose
consecutive pairs are joined by accessible edges, and whose summed distance
is at most the summed distance of every other accessible path between the
two cities. -/
theorem get_shortest_path_minimal (m : Map) (s e : Nat)
    (hd : ∀ ed ∈ m.graph.edges, 0 ≤ ed.distance)
    (hex : ∃ p0, AccWalk m.graph s e p0) :
    ∃ p, m.get_shortest_path s e = Except.ok p ∧ p.head? = some s ∧
      p.getLast? = some e ∧
      List.Chain' (fun x y => accEdge m.graph x y = true) p ∧
      (∀ x ∈ p, x ∈ m.graph.nodes) ∧
      ∀ q, AccWalk m.graph s e q →
        pathWeight m.graph (fun ed => ed.distance) p ≤
          pathWeight m.graph (fun ed => ed.distance) q := by
  obtain ⟨p, hok, hwalk, hmin⟩ := nxShortestPath_correct hd hex
  exact ⟨p, hok, hwalk.head_eq, hwalk.last_eq, hwalk.chain, hwalk.mem_nodes,
    hmin⟩

theorem get_shortest_path_minimal_witness :
    (∀ ed ∈ demoMap.graph.edges, 0 ≤ ed.distance) ∧
    (∃ p, demoMap.get_shortest_path 0 1 = Except.ok p ∧ p.head? = some 0 ∧
      p.getLast? = some 1 ∧
      ∀ q, AccWalk demoMap.graph 0 1 q →
        pathWeight demoMap.graph (fun ed => ed.distance) p ≤
          pathWeight demoMap.graph (fun ed => ed.distance) q) := by
  refine ⟨by decide, ?_⟩
  obtain ⟨p, h1, h2, h3, h4, h5, h6⟩ :=
    get_shortest_path_minimal demoMap 0 1 (by decide)
      ⟨[0, 1], .cons 0 1 1 [1] (by decide) (by decide) (.single 1 (by decide))⟩
  exact ⟨p, h1, h2, h3, h6⟩

/-- C2: for any two cities joined by at least one accessible path and any
non-negative cost rates (the spec's precondition on both rates),
`get_cheapest_path` returns an accessible path whose total cost — `distance *
land_cost_per_km` on `land` edges and `distance * sea_cost_per_km` on all
other edges — is at most the cost of every other accessible path. -/
theorem get_cheapest_path_minimal (m : Map) (s e : Nat)
    (land_cost_per_km sea_cost_per_km : Rat)
    (hd : ∀ ed ∈ m.graph.edges, 0 ≤ ed.distance)
    (hlc : 0 ≤ land_cost_per_km) (hsc : 0 ≤ sea_cost_per_km)
    (hex : ∃ p0, AccWalk m.graph s e p0) :
    ∃ p, m.get_cheapest_path s e land_cost_per_km sea_cost_per_km =
        Except.ok p ∧
      p.head? = some s ∧ p.getLast? = some e ∧
      List.Chain' (fun x y => accEdge m.graph x y = true) p ∧
      (∀ x ∈ p, x ∈ m.graph.nodes) ∧
      ∀ q, AccWalk m.graph s e q →
        pathWeight m.graph (costFn land_cost_per_km sea_cost_per_km) p ≤
          pathWeight m.graph (costFn land_cost_per_km sea_cost_per_km) q := by
  have hnn : ∀ ed ∈ m.graph.edges,
      0 ≤ costFn land_cost_per_km sea_cost_per_km ed := by
    intro ed hed
    unfold costFn
    split
    · exact mul_nonneg (hd ed hed) hlc
    · exact mul_nonneg (hd ed hed) hsc
  obtain ⟨p, hok, hwalk, hmin⟩ := nxShortestPath_correct hnn hex
  exact ⟨p, hok, hwalk.head_eq, hwalk.last_eq, hwalk.chain, hwalk.mem_nodes,
    hmin⟩

theorem get_cheapest_path_minimal_witness :
    (∀ ed ∈ demoMap.graph.edges, 0 ≤ ed.distance) ∧ (0 : Rat) ≤ 1 ∧
      ((0 : Rat) ≤ 3 / 2) ∧
    (∃ p, demoMap.get_cheapest_path 0 1 1 (3 / 2) = Except.ok p ∧
      p.head? = some 0 ∧ p.getLast? = some 1 ∧
      ∀ q, AccWalk demoMap.graph 0 1 q →
        pathWeight demoMap.graph (costFn 1 (3 / 2)) p ≤
          pathWeight demoMap.graph (costFn 1 (3 / 2)) q) := by
  refine ⟨by decide, by norm_num, by norm_num, ?_⟩
  obtain ⟨p, h1, h2, h3, h4, h5, h6⟩ :=
    get_cheapest_path_minimal demoMap 0 1 1 (3 / 2) (by decide) (by norm_num)
      (by norm_num)
      ⟨[0, 1], .cons 0 1 1 [1] (by decide) (by decide) (.single 1 (by decide))⟩
  exact ⟨p, h1, h2, h3, h6⟩

/-- C3 (counterexample): a query whose endpoint was never added fails with
`NodeNotFound`, which is a different failure from the `NoPathFound` returned
for two present but disconnected cities — refuting the claim that both cases
surface the same `NoPathFound` failure. -/
theorem absent_endpoint_error_distinct :
    twoCityMap.get_shortest_path 0 1 = Except.error PathError.noPath ∧
    twoCityMap.get_shortest_path 0 5 = Except.error PathError.nodeNotFound ∧
    PathError.nodeNotFound ≠ PathError.noPath := by
  refine ⟨rfl, rfl, ?_⟩
  intro h
  cases h

/-- C3 (amended): a `get_shortest_path` or `get_cheapest_path` query in which
`start` or `end` was never added to the graph fails with the distinct
`NodeNotFound` error, not with the `NoPathFound` failure used for two present
but unconnected cities. -/
theorem absent_endpoint_nodeNotFound (m : Map) (s e : Nat)
    (h : s ∉ m.graph.nodes ∨ e ∉ m.graph.nodes) :
    m.get_shortest_path s e = Except.error PathError.nodeNotFound ∧
    ∀ land_cost_per_km sea_cost_per_km : Rat,
      m.get_cheapest_path s e land_cost_per_km sea_cost_per_km =
        Except.error PathError.nodeNotFound := by
  have hcond : ¬ (s ∈ m.graph.nodes ∧ e ∈ m.graph.nodes) := by
    intro hc
    rcases h with h2 | h2
    · exact h2 hc.1
    · exact h2 hc.2
  constructor
  · unfold Map.get_shortest_path nxShortestPath
    rw [if_neg hcond]
  · intro lc sc
    unfold Map.get_cheapest_path nxShortestPath
    rw [if_neg hcond]

theorem absent_endpoint_nodeNotFound_witness :
    (5 ∉ twoCityMap.graph.nodes) ∧
    twoCityMap.get_shortest_path 0 5 = Except.error PathError.nodeNotFound ∧
    twoCityMap.get_cheapest_path 0 5 1 1 =
      Except.error PathError.nodeNotFound :=
  ⟨by decide,
    (absent_endpoint_nodeNotFound twoCityMap 0 5 (Or.inr (by decide))).1,
    (absent_endpoint_nodeNotFound twoCityMap 0 5 (Or.inr (by decide))).2 1 1⟩

/-- C4 (counterexample): `get_cheapest_path` called with a negative
`sea_cost_per_km` does not fail at all — no `InvalidArgument` rejection
exists in the code — and instead returns a path, refuting the claim that
negative rates are rejected before the search begins. -/
theorem negative_cost_not_rejected :
    seaEdgeMap.get_cheapest_path 0 1 1 (-3) = Except.ok [0, 1] := by
  rfl

/-- C4 (amended): `get_cheapest_path` performs no validation of the cost
rates: a negative rate flows into the search unclamped and is used directly
as the per-km multiplier of every non-land edge, as witnessed by a returned
path of negative total cost. -/
theorem negative_cost_used_as_weight :
    seaEdgeMap.get_cheapest_path 0 1 1 (-3) = Except.ok [0, 1] ∧
    pathWeight seaEdgeMap.graph (costFn 1 (-3)) [0, 1] = -30 ∧
    ((-30 : Rat) < 0) := by
  refine ⟨rfl, ?_, by norm_num⟩
  norm_num [pathWeight, stepWeight, findEdge, seaEdgeMap, Map.add_connection,
    Map.init, NXGraph.addEdge, NXGraph.addNode, costFn, matchesPair,
    List.find?]
  decide

/-- C5: disabling an existing edge `a`–`b` makes every subsequent
`get_shortest_path` or `get_cheapest_path` result avoid that edge, and (when
the edge was accessible beforehand) re-enabling it restores the map exactly,
so every query behaves exactly as before the edge was disabled. -/
theorem set_accessibility_toggle (m : Map) (a b : Nat)
    (hedge : m.graph.hasEdge a b = true) :
    (∀ s e p,
      (m.set_accessibility a b false).get_shortest_path s e = Except.ok p →
        usesEdge a b p = false) ∧
    (∀ s e (lc sc : Rat) p,
      (m.set_accessibility a b false).get_cheapest_path s e lc sc =
        Except.ok p → usesEdge a b p = false) ∧
    ((∀ ed ∈ m.graph.edges, matchesPair ed a b = true →
        ed.accessible = true) →
      (m.set_accessibility a b false).set_accessibility a b true = m ∧
      (∀ s e, ((m.set_accessibility a b false).set_accessibility a b
          true).get_shortest_path s e = m.get_shortest_path s e) ∧
      (∀ s e (lc sc : Rat),
        ((m.set_accessibility a b false).set_accessibility a b
          true).get_cheapest_path s e lc sc =
          m.get_cheapest_path s e lc sc)) := by
  have hfalse : accEdge (m.set_accessibility a b false).graph a b = false :=
    accEdge_after_disable m a b
  refine ⟨?_, ?_, ?_⟩
  · intro s e p hq
    have hq2 : nxShortestPath (m.set_accessibility a b false).graph s e
        (fun ed => ed.distance) = Except.ok p := hq
    exact usesEdge_eq_false hfalse p (nxShortestPath_ok_chain hq2)
  · intro s e lc sc p hq
    have hq2 : nxShortestPath (m.set_accessibility a b false).graph s e
        (costFn lc sc) = Except.ok p := hq
    exact usesEdge_eq_false hfalse p (nxShortestPath_ok_chain hq2)
  · intro hacc
    have hrestore := set_accessibility_restore m a b hacc
    exact ⟨hrestore, fun s e => by rw [hrestore],
      fun s e lc sc => by rw [hrestore]⟩

theorem set_accessibility_toggle_witness :
    demoMap.graph.hasEdge 0 1 = true ∧
    usesEdge 0 1 [0, 2, 1] = false ∧
    (demoMap.set_accessibility 0 1 false).set_accessibility 0 1 true =
      demoMap := by
  refine ⟨by decide, ?_, ?_⟩
  · exact (set_accessibility_toggle demoMap 0 1 (by decide)).1 0 1 [0, 2, 1]
      (by rfl)
  · exact ((set_accessibility_toggle demoMap 0 1 (by decide)).2.2
      (by decide)).1

/-- C6: `set_accessibility` on a pair of cities with no edge between them
raises nothing, creates no edge, and leaves the whole graph state unchanged. -/
theorem set_accessibility_missing_edge_noop (m : Map) (a b : Nat) (acc : Bool)
    (h : m.graph.hasEdge a b = false) :
    m.set_accessibility a b acc = m ∧
    (m.set_accessibility a b acc).graph.nodes = m.graph.nodes ∧
    (m.set_accessibility a b acc).graph.edges = m.graph.edges := by
  have e1 : m.set_accessibility a b acc = m := by
    unfold Map.set_accessibility
    rw [if_neg (by simp [h])]
  exact ⟨e1, by rw [e1], by rw [e1]⟩

theorem set_accessibility_missing_edge_noop_witness :
    twoCityMap.graph.hasEdge 0 1 = false ∧
    twoCityMap.set_accessibility 0 1 true = twoCityMap :=
  ⟨by decide,
    (set_accessibility_missing_edge_noop twoCityMap 0 1 true (by decide)).1⟩

/-- C7 (counterexample): the state reached from a fresh map by the single
call `add_connection(0, 0, 1, "land")` holds an edge whose two endpoints are
the same city, refuting the claim that no reachable state has a self-loop. -/
theorem self_loop_reachable :
    ∃ ed ∈ (applyOps Map.init
      [MapOp.add_connection 0 0 1 "land" true]).graph.edges, ed.a = ed.b := by
  decide

theorem addNode_edges (g : NXGraph) (u : Nat) :
    (g.addNode u).edges = g.edges := by
  unfold NXGraph.addNode
  split <;> rfl

theorem applyOp_no_self_loop (m : Map) (op : MapOp)
    (hm : ∀ ed ∈ m.graph.edges, ed.a ≠ ed.b)
    (hop : opNoSelfLoop op = true) :
    ∀ ed ∈ (applyOp m op).graph.edges, ed.a ≠ ed.b := by
  cases op with
  | add_city i =>
    intro ed hed
    have he2 : (applyOp m (MapOp.add_city i)).graph.edges = m.graph.edges :=
      addNode_edges m.graph i
    rw [he2] at hed
    exact hm ed hed
  | add_connection a2 b2 d rt acc =>
    intro ed hed
    have hed2 : ed ∈ ((m.graph.addNode a2).addNode b2).edges.filter
        (fun e2 => !(matchesPair e2 a2 b2)) ++
        [{ a := a2, b := b2, distance := d, route_type := rt,
           accessible := acc }] := hed
    rcases List.mem_append.mp hed2 with h1 | h1
    · have h3 := List.mem_filter.mp h1
      have h4 : ed ∈ m.graph.edges := by
        rw [addNode_edges, addNode_edges] at h3
        exact h3.1
      exact hm ed h4
    · rw [List.mem_singleton] at h1
      subst h1
      simp only [opNoSelfLoop] at hop
      intro hc
      rw [Bool.not_eq_true', beq_eq_false_iff_ne] at hop
      exact hop hc
  | set_accessibility a2 b2 acc =>
    intro ed hed
    have hed2 : ed ∈ (m.set_accessibility a2 b2 acc).graph.edges := hed
    by_cases hh : m.graph.hasEdge a2 b2 = true
    · unfold Map.set_accessibility at hed2
      rw [if_pos hh] at hed2
      have hed3 : ed ∈ m.graph.edges.map (fun e2 =>
          if matchesPair e2 a2 b2 then { e2 with accessible := acc }
          else e2) := hed2
      rw [List.mem_map] at hed3
      obtain ⟨e0, he0, rfl⟩ := hed3
      have h0 := hm e0 he0
      by_cases hmp : matchesPair e0 a2 b2 = true
      · rw [if_pos hmp]
        exact h0
      · rw [if_neg hmp]
        exact h0
    · unfold Map.set_accessibility at hed2
      rw [if_neg hh] at hed2
      exact hm ed hed2

theorem applyOps_no_self_loop :
    ∀ (ops : List MapOp) (m : Map),
      (∀ op ∈ ops, opNoSelfLoop op = true) →
      (∀ ed ∈ m.graph.edges, ed.a ≠ ed.b) →
      ∀ ed ∈ (applyOps m ops).graph.edges, ed.a ≠ ed.b := by
  intro ops
  induction ops with
  | nil =>
    intro m _ hm
    exact hm
  | cons op ops2 ih =>
    intro m hops hm
    exact ih (applyOp m op) (fun o ho => hops o (List.mem_cons_of_mem _ ho))
      (applyOp_no_self_loop m op hm (hops op (List.mem_cons_self _ _)))

/-- C7 (amended): in every state reachable from a fresh map by a sequence of
`add_city`, `add_connection` and `set_accessibility` calls in which
`add_connection` is never invoked with `city_a = city_b`, every edge joins
two distinct cities. -/
theorem no_self_loop_reachable (ops : List MapOp)
    (h : ∀ op ∈ ops, opNoSelfLoop op = true) :
    ∀ ed ∈ (applyOps Map.init ops).graph.edges, ed.a ≠ ed.b :=
  applyOps_no_self_loop ops Map.init h (by intro ed hed; cases hed)

theorem no_self_loop_reachable_witness :
    (∀ op ∈ demoOps, opNoSelfLoop op = true) ∧
    (∀ ed ∈ (applyOps Map.init demoOps).graph.edges, ed.a ≠ ed.b) :=
  ⟨by decide, no_self_loop_reachable demoOps (by decide)⟩

/-- C8 (code bug): with the `registry` dict keyed by integer ids, the guard
`name in self.registry or ticker in self.registry.values()` compares the
`str` name against `int` keys and the `str` ticker against `(name, ticker)`
tuples, so it never fires: registering the same name and ticker twice is
accepted and handed a second id, although the method's own docstring and
comment promise the duplicate is refused. -/
theorem register_company_accepts_duplicate :
    (Registry.init.register_company "Acme" "ACM").snd = some 1 ∧
    ((Registry.init.register_company "Acme" "ACM").fst.register_company
      "Acme" "ACM").snd = some 2 := by
  exact ⟨rfl, rfl⟩

theorem totalCapacity_nonneg {capacity : List (String × Int)}
    (h : ∀ kv ∈ capacity, 0 ≤ kv.snd) : 0 ≤ totalCapacity capacity := by
  unfold totalCapacity
  suffices hgen : ∀ (l : List (String × Int)) (init : Int),
      (∀ kv ∈ l, 0 ≤ kv.snd) → 0 ≤ init →
      0 ≤ l.foldl (fun acc pc => acc + pc.snd) init by
    exact hgen capacity 0 h (le_refl 0)
  intro l
  induction l with
  | nil =>
    intro init _ h0
    exact h0
  | cons kv l2 ih =>
    intro init hl h0
    simp only [List.foldl_cons]
    exact ih (init + kv.snd) (fun x hx => hl x (List.mem_cons_of_mem _ hx))
      (add_nonneg h0 (hl kv (List.mem_cons_self _ _)))

/-- C9: `set_status` classifies an efficiency of at least 0.9 as
Operational, a strictly positive efficiency below 0.9 as Limited and the
rest as Idle; since `calculate_efficiency` reports a 0–100 percentage, a
company producing at least 0.9 percent of its total capacity is constructed
with status Operational, and Limited is only assigned when output is below
0.9 percent of capacity. -/
theorem company_status_thresholds :
    (∀ eff : Rat, 9 / 10 ≤ eff → set_status eff = "Operational") ∧
    (∀ eff : Rat, 0 < eff → eff < 9 / 10 → set_status eff = "Limited") ∧
    (∀ eff : Rat, eff ≤ 0 → set_status eff = "Idle") ∧
    (∀ outputs capacity, 0 < totalCapacity capacity →
      (9 / 1000 : Rat) * (totalCapacity capacity : Rat) ≤
        (totalOutput outputs capacity : Rat) →
      companyInitStatus outputs capacity = "Operational") ∧
    (∀ outputs capacity, (∀ kv ∈ capacity, 0 ≤ kv.snd) →
      companyInitStatus outputs capacity = "Limited" →
      0 < totalCapacity capacity ∧
      (totalOutput outputs capacity : Rat) <
        (9 / 1000 : Rat) * (totalCapacity capacity : Rat)) := by
  have hop : ∀ eff : Rat, 9 / 10 ≤ eff → set_status eff = "Operational" := by
    intro eff h
    unfold set_status
    rw [if_pos h]
  refine ⟨hop, ?_, ?_, ?_, ?_⟩
  · intro eff h0 h9
    unfold set_status
    rw [if_neg (not_le.mpr h9), if_pos h0]
  · intro eff h
    unfold set_status
    rw [if_neg (not_le.mpr (lt_of_le_of_lt h (by norm_num))),
      if_neg (not_lt.mpr h)]
  · intro outputs capacity hpos hge
    have htc : totalCapacity capacity ≠ 0 := ne_of_gt hpos
    have hcast : (0 : Rat) < (totalCapacity capacity : Rat) := by
      exact_mod_cast hpos
    apply hop
    unfold calculate_efficiency
    rw [if_neg htc, div_mul_eq_mul_div, le_div_iff hcast]
    linarith
  · intro outputs capacity hnn hlim
    unfold companyInitStatus set_status at hlim
    by_cases h1 : (9 / 10 : Rat) ≤ calculate_efficiency outputs capacity
    · rw [if_pos h1] at hlim
      exact absurd hlim (by decide)
    · rw [if_neg h1] at hlim
      by_cases h2 : (0 : Rat) < calculate_efficiency outputs capacity
      · have htc : totalCapacity capacity ≠ 0 := by
          intro h0
          unfold calculate_efficiency at h2
          rw [if_pos h0] at h2
          exact lt_irrefl 0 h2
        have htcpos : 0 < totalCapacity capacity :=
          lt_of_le_of_ne (totalCapacity_nonneg hnn) (Ne.symm htc)
        refine ⟨htcpos, ?_⟩
        have hcast : (0 : Rat) < (totalCapacity capacity : Rat) := by
          exact_mod_cast htcpos
        rw [not_le] at h1
        unfold calculate_efficiency at h1
        rw [if_neg htc, div_mul_eq_mul_div, div_lt_iff hcast] at h1
        linarith
      · rw [if_neg h2] at hlim
        exact absurd hlim (by decide)

theorem company_status_thresholds_witness :
    set_status 1 = "Operational" ∧
    companyInitStatus [("Steel", 50)] [("Steel", 50)] = "Operational" ∧
    companyInitStatus [("Steel", 1)] [("Steel", 1000)] = "Limited" ∧
    (0 : Int) < totalCapacity [("Steel", 1000)] ∧
    (totalOutput [("Steel", 1)] [("Steel", 1000)] : Rat) <
      (9 / 1000 : Rat) * (totalCapacity [("Steel", 1000)] : Rat) := by
  have hlim : companyInitStatus [("Steel", 1)] [("Steel", 1000)] =
      "Limited" := by
    norm_num [companyInitStatus, set_status, calculate_efficiency,
      totalOutput, totalCapacity, dictGet, List.find?]
  refine ⟨company_status_thresholds.1 1 (by norm_num), ?_, hlim,
    (company_status_thresholds.2.2.2.2 [("Steel", 1)] [("Steel", 1000)]
      (by decide) hlim).1,
    (company_status_thresholds.2.2.2.2 [("Steel", 1)] [("Steel", 1000)]
      (by decide) hlim).2⟩
  apply company_status_thresholds.2.2.2.1 [("Steel", 50)] [("Steel", 50)]
    (by decide)
  norm_num [totalOutput, totalCapacity, dictGet, List.find?]

/-- C10: `calculate_efficiency` is total: it sums output only over the
products listed in `capacity`, treats a product missing from `outputs` as 0
produced, and returns 0 instead of dividing whenever the summed capacity is
0 — including for an empty capacity dict. -/
theorem calculate_efficiency_safe :
    (∀ outputs capacity, totalCapacity capacity = 0 →
      calculate_efficiency outputs capacity = 0) ∧
    (∀ outputs, calculate_efficiency outputs [] = 0) ∧
    (∀ outputs capacity (p : String) (v : Int),
      (∀ kv ∈ capacity, kv.fst ≠ p) →
      calculate_efficiency ((p, v) :: outputs) capacity =
        calculate_efficiency outputs capacity) ∧
    (∀ outputs (p : String), (∀ kv ∈ outputs, kv.fst ≠ p) →
      dictGet outputs p = 0) := by
  have hget : ∀ (outputs : List (String × Int)) (p : String) (v : Int)
      (k : String), k ≠ p → dictGet ((p, v) :: outputs) k = dictGet outputs k := by
    intro outputs p v k hk
    unfold dictGet
    rw [List.find?_cons_of_neg]
    intro hc
    exact hk ((beq_iff_eq.mp hc).symm)
  refine ⟨?_, ?_, ?_, ?_⟩
  · intro outputs capacity h
    unfold calculate_efficiency
    rw [if_pos h]
  · intro outputs
    unfold calculate_efficiency
    rw [if_pos (show totalCapacity ([] : List (String × Int)) = 0 from rfl)]
  · intro outputs capacity p v hcap
    have hout : totalOutput ((p, v) :: outputs) capacity =
        totalOutput outputs capacity := by
      unfold totalOutput
      suffices hgen : ∀ (l : List (String × Int)) (init : Int),
          (∀ kv ∈ l, kv.fst ≠ p) →
          l.foldl (fun acc pc => acc + dictGet ((p, v) :: outputs) pc.fst)
            init =
          l.foldl (fun acc pc => acc + dictGet outputs pc.fst) init by
        exact hgen capacity 0 hcap
      intro l
      induction l with
      | nil =>
        intro init _
        rfl
      | cons kv l2 ih =>
        intro init hl
        simp only [List.foldl_cons]
        rw [hget outputs p v kv.fst (hl kv (List.mem_cons_self _ _))]
        exact ih _ (fun x hx => hl x (List.mem_cons_of_mem _ hx))
    unfold calculate_efficiency
    rw [hout]
  · intro outputs p hmiss
    unfold dictGet
    have hnone : outputs.find? (fun kv => kv.fst == p) = none := by
      rw [List.find?_eq_none]
      intro kv hkv hc
      exact hmiss kv hkv (beq_iff_eq.mp hc)
    rw [hnone]

theorem calculate_efficiency_safe_witness :
    totalCapacity ([] : List (String × Int)) = 0 ∧
    calculate_efficiency [("Steel", 50)] [] = 0 ∧
    calculate_efficiency [("Coal", 7), ("Steel", 50)] [("Steel", 50)] =
      calculate_efficiency [("Steel", 50)] [("Steel", 50)] ∧
    dictGet [("Steel", 50)] "Iron ore" = 0 :=
  ⟨rfl, calculate_efficiency_safe.2.1 [("Steel", 50)],
    calculate_efficiency_safe.2.2.1 [("Steel", 50)] [("Steel", 50)] "Coal" 7
      (by decide),
    calculate_efficiency_safe.2.2.2 [("Steel", 50)] "Iron ore" (by decide)⟩
